import Mathlib

/-!
Shallow embedding of `src/hash_table.py`: a contact-management hash table
with separate chaining.

Modelling conventions:
- Python objects become Lean structures.
- The singly linked `Node` chains become `List Node`: the `next` pointer of
  a node is the tail of the list, `None` at the end of a chain is `[]`,
  and an empty bucket (`None` in `self.data`) is also `[]`.
- Python integers are `Int` (a `Nat` where the source only ever holds
  non-negative values, such as the running character-code sum).
- A Python expression that can raise an exception is modelled as an
  `Option`: `none` means the exception is raised.  In particular
  `HashTable.search` returns `Option (Option Contact)`: the outer layer is
  for exceptions, the inner `none` is the Python `None` not-found sentinel.
-/

/-- `Contact`: a name and a phone number (`Contact.__init__`). -/
structure Contact where
  name : String
  number : String
deriving DecidableEq

/-- `Contact.__str__`: the string `"name: number"`. -/
def Contact.str (c : Contact) : String :=
  c.name ++ ": " ++ c.number

/-- One entry of a bucket chain (`Node` in the source).  The `next`
pointer is represented by the tail of the enclosing `List Node`. -/
structure Node where
  key : String
  value : Contact
deriving DecidableEq

/-- `HashTable`: the size and the bucket array `data`. -/
structure HashTable where
  size : Int
  data : List (List Node)
deriving DecidableEq

/-- `HashTable.__init__`: `self.data = [None] * size`.  For `size <= 0`
the Python list repetition yields the empty list, and no error is raised:
there is no capacity check anywhere in the constructor. -/
def HashTable.init (size : Int) : HashTable :=
  ⟨size, List.replicate size.toNat []⟩

/-- The loop of `hash_function`: `hash_value += ord(char)` over the
characters of `key`, starting from `0`. -/
def keySum (key : String) : Nat :=
  key.data.foldl (fun a c => a + c.toNat) 0

/-- `HashTable.hash_function`: `hash_value % self.size`.  Python `%`
follows the sign of the divisor, which is `Int.fmod`, and raises
`ZeroDivisionError` when `self.size == 0` (modelled as `none`). -/
def HashTable.hash_function (t : HashTable) (key : String) : Option Int :=
  if t.size = 0 then none
  else some (Int.fmod (keySum key) t.size)

/-- Python list subscript `l[i]` with an `Int` index: a negative index
counts from the end; out of range raises `IndexError` (`none`). -/
def pyIndex (l : List α) (i : Int) : Option α :=
  if 0 ≤ i then l.get? i.toNat
  else if 0 ≤ (l.length : Int) + i then l.get? ((l.length : Int) + i).toNat
  else none

/-- Python list subscript assignment `l[i] = x`. -/
def pySet (l : List α) (i : Int) (x : α) : Option (List α) :=
  if 0 ≤ i then
    if i.toNat < l.length then some (l.set i.toNat x) else none
  else if 0 ≤ (l.length : Int) + i then
    some (l.set ((l.length : Int) + i).toNat x)
  else none

/-- The chain traversal of `HashTable.insert`: on a key match overwrite
the matched Contact's `number` field in place and stop; on reaching the
end of the chain append `Node(key, Contact(key, number))`.  The
`self.data[index] is None` case of the source is the `[]` case here. -/
def insertChain (key number : String) : List Node → List Node
  | [] => [⟨key, ⟨key, number⟩⟩]
  | n :: rest =>
    if n.key = key then ⟨n.key, ⟨n.value.name, number⟩⟩ :: rest
    else n :: insertChain key number rest

/-- `HashTable.insert`: hash the key, read the bucket, rewrite it. -/
def HashTable.insert (t : HashTable) (key number : String) :
    Option HashTable :=
  match t.hash_function key with
  | none => none
  | some index =>
    match pyIndex t.data index with
    | none => none
    | some chain =>
      match pySet t.data index (insertChain key number chain) with
      | none => none
      | some d => some ⟨t.size, d⟩

/-- The chain traversal of `HashTable.search`: first node whose key
matches wins; `none` when the traversal falls off the end. -/
def searchChain (key : String) : List Node → Option Contact
  | [] => none
  | n :: rest => if n.key = key then some n.value else searchChain key rest

/-- `HashTable.search`: outer `none` = a raised exception, `some none` =
the Python `None` not-found sentinel, `some (some c)` = found. -/
def HashTable.search (t : HashTable) (key : String) :
    Option (Option Contact) :=
  match t.hash_function key with
  | none => none
  | some index =>
    match pyIndex t.data index with
    | none => none
    | some chain => some (searchChain key chain)

/-- Python `str.strip()` for the strings `print_table` builds: drop
whitespace from both ends. -/
def pyStrip (s : String) : String :=
  ⟨((s.data.dropWhile Char.isWhitespace).reverse.dropWhile
      Char.isWhitespace).reverse⟩

/-- The accumulation loop of `print_table`:
`chain += f"- {current.value} "` along the bucket. -/
def chainString (ch : List Node) : String :=
  ch.foldl (fun s n => s ++ "- " ++ n.value.str ++ " ") ""

/-- One printed line of `print_table` for bucket `i`. -/
def renderLine (i : Nat) (ch : List Node) : String :=
  if ch = [] then "Index " ++ toString i ++ ": Empty"
  else "Index " ++ toString i ++ ": " ++ pyStrip (chainString ch)

/-- `HashTable.print_table`, as the list of lines it prints;
`none` when some subscript `self.data[i]` raises. -/
def HashTable.print_table (t : HashTable) : Option (List String) :=
  (List.range t.size.toNat).mapM
    (fun i => (pyIndex t.data (Int.ofNat i)).map (renderLine i))

/-- Structural well-formedness: positive size and a bucket array of
exactly `size` buckets, as produced by the constructor. -/
def HashTable.WF (t : HashTable) : Prop :=
  0 < t.size ∧ t.data.length = t.size.toNat

instance (t : HashTable) : Decidable t.WF := by
  unfold HashTable.WF; infer_instance

/-- The bucket index `hash_function` selects for `key` on a table of
positive size, as a natural number. -/
def hashIdx (t : HashTable) (k : String) : Nat :=
  keySum k % t.size.toNat

/-- The keys of a chain, head to tail. -/
def chainKeys (ch : List Node) : List String :=
  ch.map Node.key

/-- Number of entries carrying key `k` in the whole table. -/
def countKey (t : HashTable) (k : String) : Nat :=
  (t.data.map (fun ch => ch.countP (fun n => n.key == k))).sum

/-- The table invariant: structural well-formedness, every entry sits in
the bucket its key hashes to, and keys are unique within each chain. -/
def HashTable.Inv (t : HashTable) : Prop :=
  t.WF ∧
  (∀ i, i < t.data.length →
    ∀ n ∈ t.data.getD i [], t.hash_function n.key = some (i : Int)) ∧
  (∀ i, i < t.data.length → (chainKeys (t.data.getD i [])).Nodup)

instance (t : HashTable) : Decidable t.Inv := by
  unfold HashTable.Inv; infer_instance

/-- Fold a list of `(key, number)` pairs into the table by `insert`. -/
def insertAll (t : HashTable) (ps : List (String × String)) :
    Option HashTable :=
  ps.foldlM (fun a p => a.insert p.1 p.2) t

example : hashIdx (HashTable.init 10) "Amy" = 5 := by decide
example : hashIdx (HashTable.init 10) "May" = 5 := by decide
example : hashIdx (HashTable.init 10) "John" = 9 := by decide
example : (HashTable.init 10).hash_function "Amy" = some 5 := by decide
example : (HashTable.init 2).insert "a" "x" =
    some ⟨2, [[], [⟨"a", ⟨"a", "x"⟩⟩]]⟩ := by decide
example : (HashTable.init 0).insert "a" "x" = none := by decide
example : (HashTable.init (-3)).insert "a" "x" = none := by decide
example : (HashTable.init 2).search "a" = some none := by decide
example : (HashTable.init 2).Inv := by decide

/-! ### Generic list helpers -/

theorem get?_eq_some_getD (l : List α) (i : Nat) (d : α) (h : i < l.length) :
    l.get? i = some (l.getD i d) := by
  rw [List.get?_eq_get h, List.getD_eq_get?, List.get?_eq_get h]
  rfl

theorem getD_set_self (l : List α) (i : Nat) (a d : α) (h : i < l.length) :
    (l.set i a).getD i d = a := by
  simp [List.getD_eq_getElem?_getD, List.getElem?_set_self h]

theorem getD_set_ne (l : List α) (i j : Nat) (a d : α) (h : i ≠ j) :
    (l.set i a).getD j d = l.getD j d := by
  simp [List.getD_eq_getElem?_getD, List.getElem?_set_ne h]

theorem getD_replicate_self (n i : Nat) (a : α) :
    (List.replicate n a).getD i a = a := by
  rw [List.getD_eq_getElem?_getD, List.getElem?_replicate]
  by_cases h : i < n <;> simp [h]

theorem sum_map_zero_of_getD (L : List α) (f : α → Nat) (d : α)
    (hz : ∀ j, j < L.length → f (L.getD j d) = 0) : (L.map f).sum = 0 := by
  induction L with
  | nil => rfl
  | cons a L ih =>
    rw [List.map_cons, List.sum_cons]
    have h0 : f a = 0 := hz 0 (by simp) 
    have hrest : (L.map f).sum = 0 :=
      ih fun j hj => hz (j + 1) (by simpa using Nat.succ_lt_succ hj)
    rw [h0, hrest]

theorem sum_map_eq_getD (L : List α) (f : α → Nat) (d : α) (i : Nat)
    (hi : i < L.length)
    (hz : ∀ j, j < L.length → j ≠ i → f (L.getD j d) = 0) :
    (L.map f).sum = f (L.getD i d) := by
  induction L generalizing i with
  | nil => simp at hi
  | cons a L ih =>
    cases i with
    | zero =>
      rw [List.map_cons, List.sum_cons]
      have hrest : (L.map f).sum = 0 :=
        sum_map_zero_of_getD L f d fun j hj =>
          hz (j + 1) (by simpa using Nat.succ_lt_succ hj) (by simp)
      simp [hrest]
    | succ i =>
      rw [List.map_cons, List.sum_cons]
      have h0 : f a = 0 := hz 0 (by simp) (by simp)
      have := ih i (by simpa using Nat.lt_of_succ_lt_succ hi)
        (fun j hj hne =>
          hz (j + 1) (by simpa using Nat.succ_lt_succ hj) (by simpa using hne))
      simp [h0, this]

theorem mapM_option_of_eq (l : List α) (f : α → Option β) (g : α → β)
    (h : ∀ a ∈ l, f a = some (g a)) : l.mapM f = some (l.map g) := by
  induction l with
  | nil => rfl
  | cons a l ih =>
    rw [List.mapM_cons, h a (by simp), ih fun b hb => h b (by simp [hb])]
    rfl

/-! ### Python subscript helpers -/

theorem pyIndex_ofNat (l : List α) (i : Nat) :
    pyIndex l (Int.ofNat i) = l.get? i := by
  unfold pyIndex
  rw [if_pos (show (0 : Int) ≤ Int.ofNat i from Int.ofNat_zero_le i)]
  rfl

theorem pyIndex_nil (i : Int) : pyIndex ([] : List α) i = none := by
  unfold pyIndex
  split
  · simp
  · split
    · simp
    · rfl

theorem pySet_ofNat (l : List α) (i : Nat) (x : α) (h : i < l.length) :
    pySet l (Int.ofNat i) x = some (l.set i x) := by
  unfold pySet
  rw [if_pos (show (0 : Int) ≤ Int.ofNat i from Int.ofNat_zero_le i),
    if_pos (show (Int.ofNat i).toNat < l.length by simpa using h)]
  rfl

/-! ### The hash function on a well-formed table -/

theorem hash_function_WF (t : HashTable) (h : t.WF) (k : String) :
    t.hash_function k = some (Int.ofNat (hashIdx t k)) := by
  obtain ⟨hpos, hlen⟩ := h
  have hsz : (t.size.toNat : Int) = t.size := Int.toNat_of_nonneg (le_of_lt hpos)
  unfold HashTable.hash_function hashIdx
  rw [if_neg (by omega)]
  congr 1
  rw [Int.fmod_eq_emod _ (le_of_lt hpos), ← hsz]
  exact (Int.ofNat_emod _ _).symm

theorem hashIdx_lt (t : HashTable) (h : t.WF) (k : String) :
    hashIdx t k < t.data.length := by
  obtain ⟨hpos, hlen⟩ := h
  unfold hashIdx
  rw [hlen]
  exact Nat.mod_lt _ (by omega)

/-! ### Unfolding insert and search on a well-formed table -/

theorem insert_eq (t : HashTable) (h : t.WF) (k num : String) :
    t.insert k num =
      some ⟨t.size, t.data.set (hashIdx t k)
        (insertChain k num (t.data.getD (hashIdx t k) []))⟩ := by
  have hlt := hashIdx_lt t h k
  have h1 := hash_function_WF t h k
  have h2 : pyIndex t.data (Int.ofNat (hashIdx t k)) =
      some (t.data.getD (hashIdx t k) []) := by
    rw [pyIndex_ofNat]
    exact get?_eq_some_getD _ _ _ hlt
  have h3 := pySet_ofNat t.data (hashIdx t k)
    (insertChain k num (t.data.getD (hashIdx t k) [])) hlt
  simp only [HashTable.insert, h1, h2, h3]

theorem search_eq (t : HashTable) (h : t.WF) (k : String) :
    t.search k = some (searchChain k (t.data.getD (hashIdx t k) [])) := by
  have hlt := hashIdx_lt t h k
  have h1 := hash_function_WF t h k
  have h2 : pyIndex t.data (Int.ofNat (hashIdx t k)) =
      some (t.data.getD (hashIdx t k) []) := by
    rw [pyIndex_ofNat]
    exact get?_eq_some_getD _ _ _ hlt
  simp only [HashTable.search, h1, h2]

theorem WF_insert (t : HashTable) (hwf : t.WF) (k num : String)
    (t' : HashTable) (hins : t.insert k num = some t') : t'.WF := by
  rw [insert_eq t hwf k num] at hins
  injection hins with hins
  subst hins
  exact ⟨hwf.1, by simp [hwf.2]⟩

/-! ### Chain-level lemmas about insertChain and searchChain -/

theorem searchChain_insertChain_self (k num : String) (ch : List Node) :
    ∃ c, searchChain k (insertChain k num ch) = some c ∧ c.number = num := by
  induction ch with
  | nil => exact ⟨⟨k, num⟩, by simp [insertChain, searchChain], rfl⟩
  | cons n rest ih =>
    by_cases hk : n.key = k
    · exact ⟨⟨n.value.name, num⟩, by simp [insertChain, searchChain, hk], rfl⟩
    · obtain ⟨c, hc, hnum⟩ := ih
      exact ⟨c, by simp [insertChain, searchChain, hk, hc], hnum⟩

theorem searchChain_insertChain_ne (k k' num : String) (ch : List Node)
    (h : k' ≠ k) :
    searchChain k' (insertChain k num ch) = searchChain k' ch := by
  induction ch with
  | nil => simp [insertChain, searchChain, Ne.symm h]
  | cons n rest ih =>
    by_cases hk : n.key = k
    · simp [insertChain, searchChain, hk, Ne.symm h]
    · by_cases hk2 : n.key = k'
      · simp [insertChain, searchChain, hk, hk2, h]
      · simp [insertChain, searchChain, hk, hk2, ih]

theorem insertChain_keys_mem (k num : String) (ch : List Node)
    (h : k ∈ chainKeys ch) :
    chainKeys (insertChain k num ch) = chainKeys ch := by
  induction ch with
  | nil => simp [chainKeys] at h
  | cons n rest ih =>
    by_cases hk : n.key = k
    · simp [insertChain, chainKeys, hk]
    · have h' : k ∈ chainKeys rest := by
        simp only [chainKeys, List.map_cons, List.mem_cons] at h
        rcases h with h | h
        · exact absurd h.symm hk
        · exact h
      have := ih h'
      simp only [insertChain, if_neg hk, chainKeys, List.map_cons]
      simp only [chainKeys] at this
      rw [this]

theorem insertChain_keys_not_mem (k num : String) (ch : List Node)
    (h : k ∉ chainKeys ch) :
    insertChain k num ch = ch ++ [⟨k, ⟨k, num⟩⟩] := by
  induction ch with
  | nil => simp [insertChain]
  | cons n rest ih =>
    simp only [chainKeys, List.map_cons, List.mem_cons, not_or] at h
    have h1 : ¬ n.key = k := fun hh => h.1 hh.symm
    have h2 : k ∉ chainKeys rest := h.2
    simp only [insertChain, if_neg h1, List.cons_append]
    rw [ih h2]

theorem mem_insertChain_key (k num : String) (ch : List Node) :
    ∀ n ∈ insertChain k num ch, n.key ∈ chainKeys ch ∨ n.key = k := by
  induction ch with
  | nil =>
    intro n hn
    simp only [insertChain, List.mem_singleton] at hn
    subst hn
    exact Or.inr rfl
  | cons m rest ih =>
    intro n hn
    by_cases hk : m.key = k
    · simp only [insertChain, if_pos hk, List.mem_cons] at hn
      rcases hn with rfl | hn
      · exact Or.inl (by simp [chainKeys])
      · exact Or.inl (by simp [chainKeys]; exact Or.inr ⟨n, hn, rfl⟩)
    · simp only [insertChain, if_neg hk, List.mem_cons] at hn
      rcases hn with rfl | hn
      · exact Or.inl (by simp [chainKeys])
      · rcases ih n hn with h | h
        · exact Or.inl (by simp [chainKeys] at h ⊢; exact Or.inr h)
        · exact Or.inr h

theorem count_insertChain_eq_one (k num : String) (ch : List Node)
    (hnd : (chainKeys ch).Nodup) :
    (chainKeys (insertChain k num ch)).count k = 1 := by
  by_cases h : k ∈ chainKeys ch
  · rw [insertChain_keys_mem k num ch h]
    exact List.count_eq_one_of_mem hnd h
  · rw [insertChain_keys_not_mem k num ch h]
    have hz : (chainKeys ch).count k = 0 := List.count_eq_zero.mpr h
    simp [chainKeys, List.count_append, List.count_cons]
    simp only [chainKeys] at hz
    simp [hz]

theorem count_insertChain_ne (k k' num : String) (ch : List Node)
    (h : k' ≠ k) :
    (chainKeys (insertChain k num ch)).count k' = (chainKeys ch).count k' := by
  by_cases hm : k ∈ chainKeys ch
  · rw [insertChain_keys_mem k num ch hm]
  · rw [insertChain_keys_not_mem k num ch hm]
    simp [chainKeys, List.count_append, List.count_cons, h]

theorem nodup_insertChain (k num : String) (ch : List Node)
    (hnd : (chainKeys ch).Nodup) :
    (chainKeys (insertChain k num ch)).Nodup := by
  by_cases h : k ∈ chainKeys ch
  · rw [insertChain_keys_mem k num ch h]
    exact hnd
  · rw [insertChain_keys_not_mem k num ch h]
    simp only [chainKeys, List.map_append]
    rw [List.nodup_append]
    refine ⟨hnd, by simp, ?_⟩
    intro a ha hb
    simp only [List.map_cons, List.map_nil, List.mem_singleton] at hb
    subst hb
    exact h (by simpa [chainKeys] using ha)

/-! ### The invariant is preserved by insert -/

theorem Inv_insert (t : HashTable) (h : t.Inv) (k num : String)
    (t' : HashTable) (hins : t.insert k num = some t') : t'.Inv := by
  obtain ⟨hwf, hhash, hnd⟩ := h
  rw [insert_eq t hwf k num] at hins
  injection hins with hins
  subst hins
  have hlt := hashIdx_lt t hwf k
  refine ⟨⟨hwf.1, by simp [hwf.2]⟩, ?_, ?_⟩
  · intro j hj n hn
    simp only [List.length_set] at hj
    show t.hash_function n.key = some (j : Int)
    by_cases hji : j = hashIdx t k
    · subst hji
      rw [getD_set_self _ _ _ _ hlt] at hn
      rcases mem_insertChain_key k num _ n hn with hm | hm
      · obtain ⟨m, hmem, hkey⟩ := List.mem_map.mp hm
        rw [← hkey]
        exact hhash _ hlt m hmem
      · rw [hm]
        exact hash_function_WF t hwf k
    · rw [getD_set_ne _ _ _ _ _ (Ne.symm hji)] at hn
      exact hhash j hj n hn
  · intro j hj
    simp only [List.length_set] at hj
    by_cases hji : j = hashIdx t k
    · subst hji
      rw [getD_set_self _ _ _ _ hlt]
      exact nodup_insertChain k num _ (hnd _ hlt)
    · rw [getD_set_ne _ _ _ _ _ (Ne.symm hji)]
      exact hnd j hj

theorem Inv_init (c : Int) (h : 0 < c) : (HashTable.init c).Inv := by
  refine ⟨⟨h, by simp [HashTable.init]⟩, ?_, ?_⟩
  · intro i hi n hn
    simp only [HashTable.init] at hn
    rw [getD_replicate_self] at hn
    simp at hn
  · intro i hi
    simp only [HashTable.init]
    rw [getD_replicate_self]
    simp [chainKeys]

/-! ### Counting entries of one key over the whole table -/

theorem countP_key_eq_count (ch : List Node) (k : String) :
    ch.countP (fun n => n.key == k) = (chainKeys ch).count k := by
  unfold chainKeys
  rw [List.count, List.countP_map]
  rfl

theorem countKey_eq_bucket (t : HashTable) (h : t.Inv) (k : String) :
    countKey t k = (chainKeys (t.data.getD (hashIdx t k) [])).count k := by
  obtain ⟨hwf, hhash, hnd⟩ := h
  unfold countKey
  rw [show (fun ch => List.countP (fun n => n.key == k) ch) =
      (fun ch => (chainKeys ch).count k) from funext fun ch => countP_key_eq_count ch k]
  apply sum_map_eq_getD
  · exact hashIdx_lt t hwf k
  · intro j hj hne
    rw [List.count_eq_zero]
    intro hmem
    obtain ⟨n, hn, hkey⟩ := List.mem_map.mp hmem
    have hj2 := hhash j hj n hn
    rw [hkey, hash_function_WF t hwf k] at hj2
    injection hj2 with hj2
    exact hne (Int.ofNat.inj hj2).symm

/-! ### Search is stable under inserts of other keys -/

theorem hashIdx_congr (t' t : HashTable) (h : t'.size = t.size) (k : String) :
    hashIdx t' k = hashIdx t k := by
  unfold hashIdx
  rw [h]

theorem search_none_insert (t : HashTable) (hwf : t.WF) (k k' num : String)
    (hne : k ≠ k') (hs : t.search k = some none) (t' : HashTable)
    (hins : t.insert k' num = some t') : t'.search k = some none := by
  have hwf' := WF_insert t hwf k' num t' hins
  rw [insert_eq t hwf k' num] at hins
  injection hins with hins
  have hsize : t'.size = t.size := by rw [← hins]
  have hdata : t'.data = t.data.set (hashIdx t k')
      (insertChain k' num (t.data.getD (hashIdx t k') [])) := by rw [← hins]
  rw [search_eq t' hwf' k, hashIdx_congr t' t hsize k, hdata]
  rw [search_eq t hwf k] at hs
  injection hs with hs
  congr 1
  by_cases hb : hashIdx t k = hashIdx t k'
  · rw [hb, getD_set_self _ _ _ _ (hashIdx_lt t hwf k')]
    rw [searchChain_insertChain_ne k' k num _ hne]
    rw [← hb]
    exact hs
  · rw [getD_set_ne _ _ _ _ _ (fun he => hb he.symm)]
    exact hs

theorem insertAll_cons (t : HashTable) (p : String × String)
    (ps : List (String × String)) :
    insertAll t (p :: ps) =
      (t.insert p.1 p.2).bind fun t1 => insertAll t1 ps := by
  simp [insertAll, List.foldlM_cons]

theorem WF_insertAll :
    ∀ ps (t : HashTable), t.WF → ∀ t', insertAll t ps = some t' → t'.WF := by
  intro ps
  induction ps with
  | nil =>
    intro t hwf t' h
    simp [insertAll] at h
    subst h
    exact hwf
  | cons p ps ih =>
    intro t hwf t' h
    rw [insertAll_cons] at h
    cases hstep : t.insert p.1 p.2 with
    | none => rw [hstep] at h; simp at h
    | some t1 =>
      rw [hstep] at h
      simp only [Option.some_bind] at h
      exact ih t1 (WF_insert t hwf p.1 p.2 t1 hstep) t' h

theorem search_none_insertAll (k : String) :
    ∀ ps (t : HashTable), t.WF → t.search k = some none →
      (∀ p ∈ ps, p.1 ≠ k) →
      ∀ t', insertAll t ps = some t' → t'.search k = some none := by
  intro ps
  induction ps with
  | nil =>
    intro t hwf hs hk t' h
    simp [insertAll] at h
    subst h
    exact hs
  | cons p ps ih =>
    intro t hwf hs hk t' h
    rw [insertAll_cons] at h
    cases hstep : t.insert p.1 p.2 with
    | none => rw [hstep] at h; simp at h
    | some t1 =>
      rw [hstep] at h
      simp only [Option.some_bind] at h
      refine ih t1 (WF_insert t hwf p.1 p.2 t1 hstep) ?_ ?_ t' h
      · exact search_none_insert t hwf k p.1 p.2
          (Ne.symm (hk p (by simp))) hs t1 hstep
      · intro q hq
        exact hk q (by simp [hq])

theorem search_init_none (c : Int) (h : 0 < c) (k : String) :
    (HashTable.init c).search k = some none := by
  have hwf : (HashTable.init c).WF := ⟨h, by simp [HashTable.init]⟩
  rw [search_eq _ hwf k]
  simp only [HashTable.init]
  rw [getD_replicate_self]
  rfl

/-! ### Claim theorems -/

/-- C1 counterexample: constructing a table with capacity `0` (and `-5`)
does NOT fail — `HashTable.__init__` has no capacity check, so a table is
produced (with an empty bucket array), refuting the claim that
construction with `capacity <= 0` raises an `InvalidCapacity` error and
produces no table. -/
theorem init_nonpos_counterexample :
    HashTable.init 0 = ⟨0, []⟩ ∧ HashTable.init (-5) = ⟨-5, []⟩ := by
  constructor <;> rfl

/-- C1 (amended): for every integer `size ≤ 0`, `HashTable` construction
succeeds with no error of any kind and produces a table whose bucket
array is empty; no `InvalidCapacity` failure exists in the code. -/
theorem init_nonpos_no_error (size : Int) (h : size ≤ 0) :
    HashTable.init size = ⟨size, []⟩ := by
  unfold HashTable.init
  rw [Int.toNat_eq_zero.mpr h]
  rfl

/-- Witness for `init_nonpos_no_error` at `size = -5`. -/
theorem init_nonpos_no_error_witness :
    (-5 : Int) ≤ 0 ∧ HashTable.init (-5) = ⟨-5, []⟩ :=
  ⟨by decide, init_nonpos_no_error (-5) (by decide)⟩

/-- C9: for every `size ≤ 0`, construction itself succeeds (producing a
table with an empty bucket array), and on such a table every insert and
every search raises (modulo-by-zero or an out-of-range bucket subscript)
instead of returning normally: the error surfaces at first use, not at
construction. -/
theorem init_nonpos_fails_at_first_use (size : Int) (h : size ≤ 0)
    (k num : String) :
    (HashTable.init size).data = [] ∧
    (HashTable.init size).insert k num = none ∧
    (HashTable.init size).search k = none := by
  have hdata : (HashTable.init size).data = [] := by
    simp [HashTable.init, Int.toNat_eq_zero.mpr h]
  refine ⟨hdata, ?_, ?_⟩
  · simp only [HashTable.insert]
    cases hh : (HashTable.init size).hash_function k with
    | none => rfl
    | some idx => simp [hdata, pyIndex_nil]
  · simp only [HashTable.search]
    cases hh : (HashTable.init size).hash_function k with
    | none => rfl
    | some idx => simp [hdata, pyIndex_nil]

/-- Witness for `init_nonpos_fails_at_first_use` at `size = -2`. -/
theorem init_nonpos_fails_at_first_use_witness :
    (-2 : Int) ≤ 0 ∧
      ((HashTable.init (-2)).data = [] ∧
        (HashTable.init (-2)).insert "Amy" "111" = none ∧
        (HashTable.init (-2)).search "Amy" = none) :=
  ⟨by decide, init_nonpos_fails_at_first_use (-2) (by decide) "Amy" "111"⟩

/-- C2: on any table with capacity > 0, `hash_function key` returns
exactly the sum of the code points of `key`'s characters modulo the
capacity; the result is in `[0, capacity)`; the result depends on nothing
but the size and the key (pure, no side effects); and the empty string
hashes to `0`. -/
theorem hash_function_spec (t : HashTable) (h : 0 < t.size) (k : String) :
    t.hash_function k = some ((keySum k : Int) % t.size) ∧
    (∀ i, t.hash_function k = some i → 0 ≤ i ∧ i < t.size) ∧
    (∀ d, HashTable.hash_function ⟨t.size, d⟩ k = t.hash_function k) ∧
    t.hash_function "" = some 0 := by
  have hne : t.size ≠ 0 := by omega
  have key : ∀ k' : String,
      t.hash_function k' = some ((keySum k' : Int) % t.size) := by
    intro k'
    unfold HashTable.hash_function
    rw [if_neg hne, Int.fmod_eq_emod _ (le_of_lt h)]
  refine ⟨key k, ?_, fun d => rfl, ?_⟩
  · intro i hi
    rw [key k] at hi
    injection hi with hi
    subst hi
    exact ⟨Int.emod_nonneg _ hne, Int.emod_lt_of_pos _ h⟩
  · rw [key ""]
    norm_num [show keySum "" = 0 from rfl]

/-- Witness for `hash_function_spec` on a capacity-7 table and "Amy". -/
theorem hash_function_spec_witness :
    (0 : Int) < (HashTable.init 7).size ∧
      (HashTable.init 7).hash_function "Amy" =
        some ((keySum "Amy" : Int) % (HashTable.init 7).size) ∧
      (HashTable.init 7).hash_function "" = some 0 := by
  have h := hash_function_spec (HashTable.init 7) (by decide) "Amy"
  exact ⟨by decide, h.1, h.2.2.2⟩

/-- C8: for every capacity > 0, a fresh table has all buckets empty,
`print_table` reports each of its `capacity` buckets as `Empty`, and
search of any key returns the not-found sentinel. -/
theorem init_fresh_empty (c : Int) (h : 0 < c) :
    (∀ i, i < (HashTable.init c).data.length →
      (HashTable.init c).data.getD i [] = []) ∧
    (HashTable.init c).print_table =
      some ((List.range c.toNat).map
        (fun i => "Index " ++ toString i ++ ": Empty")) ∧
    (∀ k, (HashTable.init c).search k = some none) := by
  refine ⟨?_, ?_, fun k => search_init_none c h k⟩
  · intro i hi
    simp only [HashTable.init]
    exact getD_replicate_self _ _ _
  · unfold HashTable.print_table
    apply mapM_option_of_eq
    intro i hi
    have hi' : i < c.toNat := by simpa using List.mem_range.mp hi
    have hlen : i < (HashTable.init c).data.length := by
      simpa [HashTable.init] using hi'
    have hidx : pyIndex (HashTable.init c).data (Int.ofNat i) = some [] := by
      rw [pyIndex_ofNat, get?_eq_some_getD _ _ [] hlen]
      congr 1
      simp only [HashTable.init]
      exact getD_replicate_self _ _ _
    rw [hidx]
    simp [renderLine]

/-- Witness for `init_fresh_empty` at capacity 3 and key "Chris". -/
theorem init_fresh_empty_witness :
    (0 : Int) < 3 ∧
      (HashTable.init 3).print_table =
        some ["Index 0: Empty", "Index 1: Empty", "Index 2: Empty"] ∧
      (HashTable.init 3).search "Chris" = some none := by
  have h := init_fresh_empty 3 (by decide)
  refine ⟨by decide, ?_, h.2.2 "Chris"⟩
  rw [h.2.1]
  rfl

/-! ### A packaged description of a successful insert -/

theorem insert_some (t : HashTable) (h : t.WF) (k num : String) :
    ∃ t', t.insert k num = some t' ∧ t'.WF ∧ t'.size = t.size ∧
      t'.data.length = t.data.length ∧
      t'.data.getD (hashIdx t k) [] =
        insertChain k num (t.data.getD (hashIdx t k) []) ∧
      ∀ j, j < t.data.length → j ≠ hashIdx t k →
        t'.data.getD j [] = t.data.getD j [] := by
  refine ⟨_, insert_eq t h k num, ⟨h.1, by simp [h.2]⟩, rfl, by simp, ?_, ?_⟩
  · exact getD_set_self _ _ _ _ (hashIdx_lt t h k)
  · intro j hj hne
    exact getD_set_ne _ _ _ _ _ (Ne.symm hne)

theorem searchChain_append_first (k : String) (pre : List Node)
    (v : Contact) (post : List Node) (h : k ∉ chainKeys pre) :
    searchChain k (pre ++ Node.mk k v :: post) = some v := by
  induction pre with
  | nil => simp [searchChain]
  | cons n rest ih =>
    simp only [chainKeys, List.map_cons, List.mem_cons, not_or] at h
    have h1 : ¬ n.key = k := fun hh => h.1 hh.symm
    simp only [List.cons_append, searchChain, if_neg h1]
    exact ih h.2

theorem searchChain_not_mem (k : String) (ch : List Node)
    (h : k ∉ chainKeys ch) : searchChain k ch = none := by
  induction ch with
  | nil => rfl
  | cons n rest ih =>
    simp only [chainKeys, List.map_cons, List.mem_cons, not_or] at h
    have h1 : ¬ n.key = k := fun hh => h.1 hh.symm
    simp only [searchChain, if_neg h1]
    exact ih h.2

/-- C10: frame property of insert: on any well-formed table the insert
succeeds, the size and the number of buckets are unchanged, and every
bucket other than the one at the key's hash index is left entirely
unchanged (same entries, same order, same Contact fields). -/
theorem insert_frame (t : HashTable) (h : t.WF) (k num : String) :
    ∃ t', t.insert k num = some t' ∧
      t'.size = t.size ∧
      t'.data.length = t.data.length ∧
      ∀ j, j < t.data.length → j ≠ hashIdx t k →
        t'.data.getD j [] = t.data.getD j [] := by
  obtain ⟨t', h1, _, h3, h4, _, h6⟩ := insert_some t h k num
  exact ⟨t', h1, h3, h4, h6⟩

/-- Witness for `insert_frame` on a fresh capacity-10 table. -/
theorem insert_frame_witness :
    (HashTable.init 10).WF ∧
      ∃ t', (HashTable.init 10).insert "Amy" "111-222-3333" = some t' ∧
        t'.size = (HashTable.init 10).size ∧
        t'.data.length = (HashTable.init 10).data.length ∧
        ∀ j, j < (HashTable.init 10).data.length →
          j ≠ hashIdx (HashTable.init 10) "Amy" →
          t'.data.getD j [] = (HashTable.init 10).data.getD j [] :=
  ⟨by decide, insert_frame (HashTable.init 10) (by decide) "Amy" "111-222-3333"⟩

/-- C7: collision independence: for distinct keys `k1 ≠ k2` whose hashes
collide, inserting `(k1, v1)` then `(k2, v2)` leaves both retrievable via
search with their own, independent numbers. -/
theorem collision_independence (t : HashTable) (h : t.WF)
    (k1 k2 v1 v2 : String) (hne : k1 ≠ k2)
    (hcol : t.hash_function k1 = t.hash_function k2) :
    ∃ t1 t2 c1 c2,
      t.insert k1 v1 = some t1 ∧ t1.insert k2 v2 = some t2 ∧
      t2.search k1 = some (some c1) ∧ c1.number = v1 ∧
      t2.search k2 = some (some c2) ∧ c2.number = v2 := by
  have h1 := hash_function_WF t h k1
  have h2 := hash_function_WF t h k2
  rw [h1, h2] at hcol
  injection hcol with hcol
  have hidx : hashIdx t k2 = hashIdx t k1 := (Int.ofNat.inj hcol).symm
  obtain ⟨t1, hi1, hwf1, hsz1, hlen1, hb1, hf1⟩ := insert_some t h k1 v1
  have hidx2 : hashIdx t1 k2 = hashIdx t k1 := by
    rw [hashIdx_congr t1 t hsz1 k2]
    exact hidx
  obtain ⟨t2, hi2, hwf2, hsz2, hlen2, hb2, hf2⟩ := insert_some t1 hwf1 k2 v2
  rw [hidx2] at hb2
  have hb2' : t2.data.getD (hashIdx t k1) [] =
      insertChain k2 v2
        (insertChain k1 v1 (t.data.getD (hashIdx t k1) [])) := by
    rw [hb2, hb1]
  have hsk1 : hashIdx t2 k1 = hashIdx t k1 := by
    rw [hashIdx_congr t2 t1 hsz2 k1, hashIdx_congr t1 t hsz1 k1]
  have hsk2 : hashIdx t2 k2 = hashIdx t k1 := by
    rw [hashIdx_congr t2 t1 hsz2 k2, hidx2]
  obtain ⟨c1, hc1, hc1num⟩ := searchChain_insertChain_self k1 v1
    (t.data.getD (hashIdx t k1) [])
  obtain ⟨c2, hc2, hc2num⟩ := searchChain_insertChain_self k2 v2
    (insertChain k1 v1 (t.data.getD (hashIdx t k1) []))
  refine ⟨t1, t2, c1, c2, hi1, hi2, ?_, hc1num, ?_, hc2num⟩
  · rw [search_eq t2 hwf2 k1, hsk1, hb2',
      searchChain_insertChain_ne k2 k1 v2 _ hne, hc1]
  · rw [search_eq t2 hwf2 k2, hsk2, hb2', hc2]

/-- Witness for `collision_independence`: the anagram keys "Amy"/"May"
on a capacity-10 table, which hash to the same bucket. -/
theorem collision_independence_witness :
    (HashTable.init 10).WF ∧ ("Amy" : String) ≠ "May" ∧
      (HashTable.init 10).hash_function "Amy" =
        (HashTable.init 10).hash_function "May" ∧
      ∃ t1 t2 c1 c2,
        (HashTable.init 10).insert "Amy" "111-222-3333" = some t1 ∧
        t1.insert "May" "222-333-1111" = some t2 ∧
        t2.search "Amy" = some (some c1) ∧ c1.number = "111-222-3333" ∧
        t2.search "May" = some (some c2) ∧ c2.number = "222-333-1111" :=
  ⟨by decide, by decide, by decide,
    collision_independence (HashTable.init 10) (by decide) "Amy" "May"
      "111-222-3333" "222-333-1111" (by decide) (by decide)⟩

/-- C6: search computes the hash index and traverses that bucket's chain
head to tail; the first entry with an equal key wins; an absent key gives
the not-found sentinel `some none` (a returned value, not the raised
failure `none`); and on any table built by inserts from a fresh table, a
key never inserted yields not-found. -/
theorem search_spec (t : HashTable) (h : t.WF) (k : String) :
    t.search k = some (searchChain k (t.data.getD (hashIdx t k) [])) ∧
    (∀ pre v post, k ∉ chainKeys pre →
      searchChain k (pre ++ Node.mk k v :: post) = some v) ∧
    (k ∉ chainKeys (t.data.getD (hashIdx t k) []) →
      t.search k = some none) ∧
    (∀ c ps t', 0 < c → insertAll (HashTable.init c) ps = some t' →
      (∀ p ∈ ps, p.1 ≠ k) → t'.search k = some none) := by
  refine ⟨search_eq t h k, searchChain_append_first k, ?_, ?_⟩
  · intro hmem
    rw [search_eq t h k, searchChain_not_mem k _ hmem]
  · intro c ps t' hc hall hk
    exact search_none_insertAll k ps (HashTable.init c)
      ⟨hc, by simp [HashTable.init]⟩ (search_init_none c hc k) hk t' hall

/-- Witness for `search_spec` on a fresh capacity-10 table and "Chris". -/
theorem search_spec_witness :
    (HashTable.init 10).WF ∧
      (HashTable.init 10).search "Chris" =
        some (searchChain "Chris"
          ((HashTable.init 10).data.getD
            (hashIdx (HashTable.init 10) "Chris") [])) :=
  ⟨by decide, (search_spec (HashTable.init 10) (by decide) "Chris").1⟩

/-- C3: update law: on a table satisfying the invariant, `insert(k, v1)`
followed by `insert(k, v2)` leaves exactly one entry for `k` in the whole
table, and `search(k)` then returns a Contact whose number equals `v2`. -/
theorem insert_update_law (t : HashTable) (h : t.Inv) (k v1 v2 : String) :
    ∃ t1 t2, t.insert k v1 = some t1 ∧ t1.insert k v2 = some t2 ∧
      countKey t2 k = 1 ∧
      ∃ c, t2.search k = some (some c) ∧ c.number = v2 := by
  have hwf := h.1
  obtain ⟨t1, hi1, hwf1, hsz1, hlen1, hb1, hf1⟩ := insert_some t hwf k v1
  have hInv1 : t1.Inv := Inv_insert t h k v1 t1 hi1
  obtain ⟨t2, hi2, hwf2, hsz2, hlen2, hb2, hf2⟩ := insert_some t1 hwf1 k v2
  have hInv2 : t2.Inv := Inv_insert t1 hInv1 k v2 t2 hi2
  have hidx1 : hashIdx t1 k = hashIdx t k := hashIdx_congr t1 t hsz1 k
  have hidx2 : hashIdx t2 k = hashIdx t k := by
    rw [hashIdx_congr t2 t1 hsz2 k, hidx1]
  rw [hidx1] at hb2
  have hb2' : t2.data.getD (hashIdx t k) [] =
      insertChain k v2
        (insertChain k v1 (t.data.getD (hashIdx t k) [])) := by
    rw [hb2, hb1]
  obtain ⟨c, hc, hcnum⟩ := searchChain_insertChain_self k v2
    (insertChain k v1 (t.data.getD (hashIdx t k) []))
  refine ⟨t1, t2, hi1, hi2, ?_, c, ?_, hcnum⟩
  · rw [countKey_eq_bucket t2 hInv2 k, hidx2, hb2']
    apply count_insertChain_eq_one
    have hnd1 := hInv1.2.2 (hashIdx t1 k) (hashIdx_lt t1 hwf1 k)
    rw [hidx1, hb1] at hnd1
    exact hnd1
  · rw [search_eq t2 hwf2 k, hidx2, hb2', hc]

/-- Witness for `insert_update_law`: re-inserting "Rebecca" with a new
number on a fresh capacity-10 table. -/
theorem insert_update_law_witness :
    (HashTable.init 10).Inv ∧
      ∃ t1 t2,
        (HashTable.init 10).insert "Rebecca" "111-555-0002" = some t1 ∧
        t1.insert "Rebecca" "999-444-9999" = some t2 ∧
        countKey t2 "Rebecca" = 1 ∧
        ∃ c, t2.search "Rebecca" = some (some c) ∧
          c.number = "999-444-9999" :=
  ⟨by decide, insert_update_law (HashTable.init 10) (by decide)
    "Rebecca" "111-555-0002" "999-444-9999"⟩

/-- C4: the table invariant — every entry reachable from `buckets[i]` has
`hash(key) == i`, and no two entries in a chain share a key — holds for
the freshly constructed table, is preserved by every insert, and implies
at most one entry per distinct key in the whole table. -/
theorem inv_preserved :
    (∀ c : Int, 0 < c → (HashTable.init c).Inv) ∧
    (∀ t : HashTable, t.Inv →
      ∀ k num t', t.insert k num = some t' → t'.Inv) ∧
    (∀ t : HashTable, t.Inv → ∀ k, countKey t k ≤ 1) := by
  refine ⟨Inv_init, Inv_insert, ?_⟩
  intro t hInv k
  rw [countKey_eq_bucket t hInv k]
  exact List.nodup_iff_count_le_one.mp
    (hInv.2.2 _ (hashIdx_lt t hInv.1 k)) k

/-- Witness for `inv_preserved`: the fresh capacity-2 table, the table
after inserting "a", and the key-count bound, all at concrete inputs. -/
theorem inv_preserved_witness :
    (HashTable.init 2).Inv ∧
      HashTable.Inv ⟨2, [[], [⟨"a", ⟨"a", "x"⟩⟩]]⟩ ∧
      countKey (HashTable.init 2) "Amy" ≤ 1 :=
  ⟨inv_preserved.1 2 (by decide),
    inv_preserved.2.1 (HashTable.init 2) (inv_preserved.1 2 (by decide))
      "a" "x" ⟨2, [[], [⟨"a", ⟨"a", "x"⟩⟩]]⟩ (by decide),
    inv_preserved.2.2 (HashTable.init 2)
      (inv_preserved.1 2 (by decide)) "Amy"⟩

/-- C5: insertion order within a bucket is preserved: a key not yet
present is appended at the tail of its bucket's chain (never prepended);
an insert never removes or relocates entries (each bucket's key sequence
is either unchanged or extended by the new key at the tail); and
`print_table` lists a bucket's contacts head to tail in first-insertion
order, as on the "Amy"/"May" collision scenario at capacity 10. -/
theorem insert_append_order (t : HashTable) (h : t.WF) (k num : String) :
    (k ∉ chainKeys (t.data.getD (hashIdx t k) []) →
      ∃ t', t.insert k num = some t' ∧
        t'.data.getD (hashIdx t k) [] =
          t.data.getD (hashIdx t k) [] ++ [Node.mk k ⟨k, num⟩]) ∧
    (∀ t', t.insert k num = some t' →
      ∀ j, j < t.data.length →
        chainKeys (t'.data.getD j []) = chainKeys (t.data.getD j []) ∨
        chainKeys (t'.data.getD j []) =
          chainKeys (t.data.getD j []) ++ [k]) ∧
    (∃ tm lines,
      insertAll (HashTable.init 10)
        [("Amy", "111-222-3333"), ("May", "222-333-1111")] = some tm ∧
      tm.print_table = some lines ∧
      lines.getD 5 "" =
        "Index 5: - Amy: 111-222-3333 - May: 222-333-1111") := by
  refine ⟨?_, ?_, ?_⟩
  · intro hmem
    obtain ⟨t', hi, hwf', hsz, hlen, hb, hf⟩ := insert_some t h k num
    refine ⟨t', hi, ?_⟩
    rw [hb, insertChain_keys_not_mem k num _ hmem]
  · intro t' hins j hj
    rw [insert_eq t h k num] at hins
    injection hins with hins
    have hdata : t'.data = t.data.set (hashIdx t k)
        (insertChain k num (t.data.getD (hashIdx t k) [])) := by
      rw [← hins]
    rw [hdata]
    by_cases hji : j = hashIdx t k
    · subst hji
      rw [getD_set_self _ _ _ _ (hashIdx_lt t h k)]
      by_cases hm : k ∈ chainKeys (t.data.getD (hashIdx t k) [])
      · exact Or.inl (insertChain_keys_mem k num _ hm)
      · refine Or.inr ?_
        rw [insertChain_keys_not_mem k num _ hm]
        simp [chainKeys]
    · exact Or.inl (by rw [getD_set_ne _ _ _ _ _ (Ne.symm hji)])
  · refine ⟨⟨10, [[], [], [], [], [],
      [⟨"Amy", ⟨"Amy", "111-222-3333"⟩⟩,
       ⟨"May", ⟨"May", "222-333-1111"⟩⟩], [], [], [], []]⟩,
      ["Index 0: Empty", "Index 1: Empty", "Index 2: Empty",
       "Index 3: Empty", "Index 4: Empty",
       "Index 5: - Amy: 111-222-3333 - May: 222-333-1111",
       "Index 6: Empty", "Index 7: Empty", "Index 8: Empty",
       "Index 9: Empty"], by decide, by decide, by decide⟩

/-- Witness for `insert_append_order`: inserting "Amy" into the fresh
capacity-10 table appends it at the tail of bucket 5. -/
theorem insert_append_order_witness :
    (HashTable.init 10).WF ∧
      "Amy" ∉ chainKeys ((HashTable.init 10).data.getD
        (hashIdx (HashTable.init 10) "Amy") []) ∧
      ∃ t', (HashTable.init 10).insert "Amy" "111-222-3333" = some t' ∧
        t'.data.getD (hashIdx (HashTable.init 10) "Amy") [] =
          (HashTable.init 10).data.getD
            (hashIdx (HashTable.init 10) "Amy") []
            ++ [Node.mk "Amy" ⟨"Amy", "111-222-3333"⟩] :=
  ⟨by decide, by decide,
    (insert_append_order (HashTable.init 10) (by decide)
      "Amy" "111-222-3333").1 (by decide)⟩
